import Mathlib

/-!
Verification of the per-core page allocator and the sharded buffer cache.

A shallow embedding of `kernel/kalloc.c` (per-CPU page pools with
cross-pool rebalancing) and `kernel/bio.c` (hash-sharded buffer cache),
together with theorems settling the specification's claims about them.

Machine integers of the C source are modelled as `Nat`; the fields in
question (`freelen`, `refcnt`, bucket indices, timestamps) are
nonnegative in every reachable state of the program.  Locking is not
modelled: every operation is given sequential (linearised) semantics, and
the one place where concurrent interference matters to a claim (the
re-check in `bget`) is modelled with an explicit second snapshot of the
slot array.  A C function that can `panic` returns `Option` (`none` is
the panic).
-/

namespace KAlloc

/-- Page size in bytes (`PGSIZE`). -/
def PGSIZE : Nat := 4096

/-- The allocator state: the `kmem[NCPU]` array of `kalloc.c` plus the
byte-addressed physical memory the pages live in.  `pools i` is the free
list of pool `i`, as the list of page addresses reachable from its
`freelist` pointer; `lens i` is its stored `freelen` field (a C `int`,
nonnegative in every reachable state); `mem a` is the byte at physical
address `a`. -/
structure KState where
  ncpu : Nat
  pools : Nat → List Nat
  lens : Nat → Nat
  mem : Nat → Nat

/-- Replace pool `i`'s free list. -/
def setPool (s : KState) (i : Nat) (l : List Nat) : KState :=
  { s with pools := fun j => if j = i then l else s.pools j }

/-- Replace pool `i`'s stored count. -/
def setLen (s : KState) (i n : Nat) : KState :=
  { s with lens := fun j => if j = i then n else s.lens j }

/-- `memset(pa, v, PGSIZE)`. -/
def memsetPage (v pa : Nat) (m : Nat → Nat) : Nat → Nat :=
  fun a => if pa ≤ a ∧ a < pa + PGSIZE then v else m a

/-- The store `r->next = head` puts the 8-byte link word (little endian)
into the first bytes of the page at `pa`. -/
def writeLink (pa val : Nat) (m : Nat → Nat) : Nat → Nat :=
  fun a => if pa ≤ a ∧ a < pa + 8 then val / 256 ^ (a - pa) % 256 else m a

/-- The address value a free-list head pointer stores: the first page's
address, or 0 (null) for an empty list. -/
def headAddr : List Nat → Nat
  | [] => 0
  | a :: _ => a

/-- One step of the donor scan of `reschedule` (kalloc.c:49-61): skip the
local pool; keep a strictly larger `freelen` as the new best candidate.
`acc.1 = none` models `maxid == -1`, `acc.2` models `maxlen`. -/
def scanStep (s : KState) (id : Nat) (acc : Option Nat × Nat) (i : Nat) :
    Option Nat × Nat :=
  if i = id then acc
  else if acc.2 < s.lens i then (some i, s.lens i) else acc

/-- The full donor scan `for(i = 0; i < NCPU; i++) ...` of `reschedule`. -/
def scanDonor (s : KState) (id : Nat) : Option Nat × Nat :=
  (List.range s.ncpu).foldl (scanStep s id) (none, 0)

/-- Number of iterations of the slow/fast split walk of `reschedule`
(kalloc.c:71-75): `fp` advances two nodes and `r` one node per iteration,
while `fp && fp->next`.  So `r` ends `midSteps l` nodes into the list. -/
def midSteps : List Nat → Nat
  | [] => 0
  | [_] => 0
  | _ :: _ :: rest => midSteps rest + 1

/-- The state `reschedule` leaves when the donor list held exactly one
page (kalloc.c:76-83): both lists and both counts are cleared. -/
def reschedClearState (s : KState) (id d : Nat) : KState :=
  setLen (setPool (setLen (setPool s d []) d 0) id []) id 0

/-- The state `reschedule` leaves when the donor list `L` held at least
two pages (kalloc.c:84-96): the donor keeps the part after the midpoint,
the local pool gets the front up to the midpoint with its head popped
off for the caller, and the counts are rewritten from the donor's stored
`freelen` by the parity rule of kalloc.c:87-93 (the final pop does not
touch the counts again). -/
def reschedSplitState (s : KState) (id d : Nat) (L : List Nat) : KState :=
  let k := midSteps L
  let old := s.lens d
  let dlen := if old % 2 = 0 then old / 2 - 1 else old / 2
  let llen := if old % 2 = 0 then dlen + 1 else dlen
  setLen (setPool (setLen (setPool s d (L.drop (k + 1))) d dlen)
    id (L.take (k + 1)).tail) id llen

/-- `reschedule(id)` (kalloc.c:39-102), called with the local pool's lock
held.  Returns the page handed to the caller (`none` for the null
pointer) and the new state.  If the local free list is non-empty it
returns null at once.  Otherwise the donor scan picks the pool with the
largest stored `freelen`; with no donor, or a donor whose list is empty,
it returns null.  A one-page donor list (the midpoint walk stays at the
head, kalloc.c:76) is transferred whole; otherwise the list is split at
the midpoint and the new local head popped and returned. -/
def reschedule (id : Nat) (s : KState) : Option Nat × KState :=
  match s.pools id with
  | _ :: _ => (none, s)
  | [] =>
    match scanDonor s id with
    | (none, _) => (none, s)
    | (some d, _) =>
      match s.pools d with
      | [] => (none, s)
      | x :: xs =>
        if midSteps (x :: xs) = 0 then (some x, reschedClearState s id d)
        else (some x, reschedSplitState s id d (x :: xs))

/-- `kfree(pa)` (kalloc.c:141-164) on the pool of core `cpu` (`cpuid()`),
with the managed range `[endA, physTop)` (`end`, `PHYSTOP`).  Panics
(`none`) on a misaligned or out-of-range address; otherwise fills the
page with the junk byte 1, stores the link word and pushes the page onto
the pool's free list, incrementing its stored count. -/
def kfree (endA physTop cpu pa : Nat) (s : KState) : Option KState :=
  if pa % PGSIZE ≠ 0 ∨ pa < endA ∨ physTop ≤ pa then none
  else
    let m2 := writeLink pa (headAddr (s.pools cpu)) (memsetPage 1 pa s.mem)
    some (setLen (setPool { s with mem := m2 } cpu (pa :: s.pools cpu))
      cpu (s.lens cpu + 1))

/-- `kalloc()` (kalloc.c:169-193) on the pool of core `cpu`: pop the
local free list's head and decrement the count, or fall back to
`reschedule`; a page that is returned is first filled with the junk byte
5 (kalloc.c:190-191). -/
def kalloc (cpu : Nat) (s : KState) : Option Nat × KState :=
  match s.pools cpu with
  | r :: rest =>
    let s1 := setLen (setPool s cpu rest) cpu (s.lens cpu - 1)
    (some r, { s1 with mem := memsetPage 5 r s1.mem })
  | [] =>
    match reschedule cpu s with
    | (some r, s1) => (some r, { s1 with mem := memsetPage 5 r s1.mem })
    | (none, s1) => (none, s1)

/-- Sum of the stored `freelen` counts over the managed pools. -/
def sumLens (s : KState) : Nat := ((List.range s.ncpu).map s.lens).sum

/-- Sum of the actual free-list lengths over the managed pools. -/
def sumFree (s : KState) : Nat :=
  ((List.range s.ncpu).map fun i => (s.pools i).length).sum

/-- Every managed pool's stored count equals its list's actual length
(the invariant `checklen` audits, kalloc.c:105-126). -/
def Accurate (s : KState) : Prop :=
  ∀ i, i < s.ncpu → s.lens i = (s.pools i).length

/-- An allocator call: `kalloc` or `kfree` by core `cpu`. -/
inductive KOp where
  | alloc (cpu : Nat)
  | free (cpu : Nat) (pa : Nat)

/-- The core issuing an operation. -/
def KOp.cpu : KOp → Nat
  | .alloc c => c
  | .free c _ => c

/-- Run a sequence of allocator calls, counting successful allocations
and frees; `none` if some `kfree` panics. -/
def runOps (endA physTop : Nat) : List KOp → KState → Option (KState × Nat × Nat)
  | [], s => some (s, 0, 0)
  | KOp.alloc c :: rest, s =>
    match kalloc c s with
    | (r, s1) =>
      match runOps endA physTop rest s1 with
      | none => none
      | some (sf, a, f) => some (sf, (if r.isSome then 1 else 0) + a, f)
  | KOp.free c pa :: rest, s =>
    match kfree endA physTop c pa s with
    | none => none
    | some s1 =>
      match runOps endA physTop rest s1 with
      | none => none
      | some (sf, a, f) => some (sf, a, f + 1)

/-- Scenario A's initial state: pool 1 (X) holds ten free pages, pool 0
(Y) none, counts accurate. -/
def sA : KState :=
  { ncpu := 2
  , pools := fun i =>
      if i = 1 then
        [4096, 8192, 12288, 16384, 20480, 24576, 28672, 32768, 36864, 40960]
      else []
  , lens := fun i => if i = 1 then 10 else 0
  , mem := fun _ => 0 }

/-- A two-pool state with every free list empty and zero counts. -/
def sEmpty : KState :=
  { ncpu := 2, pools := fun _ => [], lens := fun _ => 0, mem := fun _ => 0 }

/-- Invariant carried through the donor scan: a held candidate is never
the local pool, lies below `bound`, and its stored count is the held
`maxlen`, which is positive. -/
def ScanInv (s : KState) (id bound : Nat) (acc : Option Nat × Nat) : Prop :=
  ∀ d, acc.1 = some d → d ≠ id ∧ d < bound ∧ s.lens d = acc.2 ∧ 1 ≤ acc.2

/-- The split walk stops at the list's midpoint: `midSteps l` is half the
length, rounded down. -/
theorem midSteps_eq (l : List Nat) : midSteps l = l.length / 2 := by
  induction l using midSteps.induct with
  | case1 => simp [midSteps]
  | case2 => simp [midSteps]
  | case3 a b rest ih =>
    simp only [midSteps, ih, List.length_cons]
    omega

/-- Once the donor scan holds a candidate it always holds one. -/
theorem scanFold_isSome (s : KState) (id : Nat) :
    ∀ (l : List Nat) (d : Nat) (m : Nat),
      ((l.foldl (scanStep s id) (some d, m)).1).isSome := by
  intro l
  induction l with
  | nil => intro d m; rfl
  | cons i t ih =>
    intro d m
    simp only [List.foldl_cons, scanStep]
    by_cases h1 : i = id
    · simpa [h1] using ih d m
    · by_cases h2 : m < s.lens i
      · simpa [h1, h2] using ih i (s.lens i)
      · simpa [h1, h2] using ih d m

/-- If the donor scan ends empty-handed, it started empty-handed and every
pool it visited was the local pool or had stored count at most `maxlen`. -/
theorem scanFold_none (s : KState) (id : Nat) :
    ∀ (l : List Nat) (m : Nat),
      (l.foldl (scanStep s id) (none, m)).1 = none →
      ∀ i ∈ l, i = id ∨ s.lens i ≤ m := by
  intro l
  induction l with
  | nil => intro m _ i hi; cases hi
  | cons j t ih =>
    intro m hnone i hi
    simp only [List.foldl_cons, scanStep] at hnone
    by_cases h1 : j = id
    · rw [if_pos h1] at hnone
      rcases List.mem_cons.mp hi with rfl | hit
      · exact Or.inl h1
      · exact ih m hnone i hit
    · rw [if_neg h1] at hnone
      by_cases h2 : m < s.lens j
      · rw [if_pos h2] at hnone
        have := scanFold_isSome s id t j (s.lens j)
        rw [hnone] at this
        cases this
      · rw [if_neg h2] at hnone
        rcases List.mem_cons.mp hi with rfl | hit
        · exact Or.inr (Nat.le_of_not_lt h2)
        · exact ih m hnone i hit

theorem scanFold_inv (s : KState) (id bound : Nat) :
    ∀ (l : List Nat) (acc : Option Nat × Nat),
      (∀ i ∈ l, i < bound) → ScanInv s id bound acc →
      ScanInv s id bound (l.foldl (scanStep s id) acc) := by
  intro l
  induction l with
  | nil => intro acc _ h; exact h
  | cons j t ih =>
    intro acc hb hinv
    simp only [List.foldl_cons, scanStep]
    by_cases h1 : j = id
    · rw [if_pos h1]
      exact ih acc (fun i hi => hb i (List.mem_cons_of_mem j hi)) hinv
    · rw [if_neg h1]
      by_cases h2 : acc.2 < s.lens j
      · rw [if_pos h2]
        refine ih _ (fun i hi => hb i (List.mem_cons_of_mem j hi)) ?_
        intro d hd
        cases hd
        exact ⟨h1, hb j (List.mem_cons_self j t), rfl, by omega⟩
      · rw [if_neg h2]
        exact ih acc (fun i hi => hb i (List.mem_cons_of_mem j hi)) hinv

/-- The donor `reschedule` picks is another pool, is managed, and has the
largest - in particular a positive - stored count. -/
theorem scanDonor_inv (s : KState) (id : Nat) :
    ScanInv s id s.ncpu (scanDonor s id) := by
  refine scanFold_inv s id s.ncpu (List.range s.ncpu) (none, 0) ?_ ?_
  · intro i hi; exact List.mem_range.mp hi
  · intro d hd; cases hd

/-- If some other managed pool has a positive stored count, the donor
scan does find a donor. -/
theorem scanDonor_some (s : KState) (id j : Nat) (hj : j < s.ncpu)
    (hne : j ≠ id) (hpos : 1 ≤ s.lens j) :
    (scanDonor s id).1.isSome := by
  rcases h : (scanDonor s id).1 with _ | d
  · have := scanFold_none s id (List.range s.ncpu) 0 h j (List.mem_range.mpr hj)
    rcases this with h1 | h2
    · exact absurd h1 hne
    · omega
  · rfl

/-- `reschedule` on a one-page donor list: the page is transferred whole
and both pools end cleared (kalloc.c:76-83). -/
theorem reschedule_single (s : KState) (id d x : Nat)
    (hid : s.pools id = []) (hd : (scanDonor s id).1 = some d)
    (hpd : s.pools d = [x]) :
    reschedule id s = (some x, reschedClearState s id d) := by
  obtain ⟨m, hm⟩ : ∃ m, scanDonor s id = (some d, m) :=
    ⟨(scanDonor s id).2, by rw [← hd]⟩
  unfold reschedule
  simp only [hid, hm]
  rw [hpd]
  simp [midSteps]

/-- `reschedule` on a donor list of at least two pages splits it at the
midpoint (kalloc.c:84-97). -/
theorem reschedule_split (s : KState) (id d x y : Nat) (t : List Nat)
    (hid : s.pools id = []) (hd : (scanDonor s id).1 = some d)
    (hpd : s.pools d = x :: y :: t) :
    reschedule id s = (some x, reschedSplitState s id d (x :: y :: t)) := by
  obtain ⟨m, hm⟩ : ∃ m, scanDonor s id = (some d, m) :=
    ⟨(scanDonor s id).2, by rw [← hd]⟩
  unfold reschedule
  simp only [hid, hm]
  rw [hpd]
  simp [midSteps]

@[simp] theorem pools_setPool (s : KState) (i : Nat) (l : List Nat) (j : Nat) :
    (setPool s i l).pools j = if j = i then l else s.pools j := rfl

@[simp] theorem lens_setPool (s : KState) (i : Nat) (l : List Nat) (j : Nat) :
    (setPool s i l).lens j = s.lens j := rfl

@[simp] theorem ncpu_setPool (s : KState) (i : Nat) (l : List Nat) :
    (setPool s i l).ncpu = s.ncpu := rfl

@[simp] theorem mem_setPool (s : KState) (i : Nat) (l : List Nat) :
    (setPool s i l).mem = s.mem := rfl

@[simp] theorem pools_setLen (s : KState) (i n j : Nat) :
    (setLen s i n).pools j = s.pools j := rfl

@[simp] theorem lens_setLen (s : KState) (i n j : Nat) :
    (setLen s i n).lens j = if j = i then n else s.lens j := rfl

@[simp] theorem ncpu_setLen (s : KState) (i n : Nat) :
    (setLen s i n).ncpu = s.ncpu := rfl

@[simp] theorem mem_setLen (s : KState) (i n : Nat) :
    (setLen s i n).mem = s.mem := rfl

/-- What `reschedule` does once the donor scan has picked pool `d` whose
stored count matches its actual length `n ≥ 1`: it hands the donor
list's first page to the caller; both touched pools end with accurate
counts adding up to `n - 1`, whatever the parity of `n`; every other
pool is untouched; and both resulting lists draw from the donor list's
tail. -/
theorem reschedule_donor (s : KState) (id d n : Nat)
    (hid : s.pools id = []) (hd : (scanDonor s id).1 = some d)
    (hacc : s.lens d = n) (hlen : (s.pools d).length = n) (hn : 1 ≤ n) :
    ∃ x xs s', s.pools d = x :: xs ∧
      reschedule id s = (some x, s') ∧
      s'.ncpu = s.ncpu ∧ s'.mem = s.mem ∧
      (∀ j, j ≠ id → j ≠ d → s'.pools j = s.pools j ∧ s'.lens j = s.lens j) ∧
      s'.lens id = (s'.pools id).length ∧
      s'.lens d = (s'.pools d).length ∧
      s'.lens d + s'.lens id = n - 1 ∧
      s'.pools id ⊆ xs ∧ s'.pools d ⊆ xs := by
  have hdid : d ≠ id := ((scanDonor_inv s id) d hd).1
  obtain ⟨x, xs, hpd⟩ : ∃ x xs, s.pools d = x :: xs := by
    cases hp : s.pools d with
    | nil => rw [hp] at hlen; simp at hlen; omega
    | cons a l => exact ⟨a, l, rfl⟩
  cases hxs : xs with
  | nil =>
    subst hxs
    have heq := reschedule_single s id d x hid hd hpd
    have hn1 : n = 1 := by rw [hpd] at hlen; simpa using hlen.symm
    refine ⟨x, [], reschedClearState s id d, hpd, heq, rfl, rfl, ?_, ?_, ?_, ?_, ?_, ?_⟩
    · intro j hj1 hj2
      simp [reschedClearState, hj1, hj2]
    · simp [reschedClearState]
    · simp [reschedClearState, hdid]
    · simp [reschedClearState, hdid]; omega
    · simp [reschedClearState]
    · simp [reschedClearState, hdid]
  | cons y t =>
    subst hxs
    have heq := reschedule_split s id d x y t hid hd hpd
    have hL : (x :: y :: t).length = n := by rw [← hpd]; exact hlen
    have hn2 : 2 ≤ n := by simp [List.length_cons] at hL; omega
    have hk : midSteps (x :: y :: t) = n / 2 := by rw [midSteps_eq, hL]
    have hkn : n / 2 + 1 ≤ n := Nat.div_lt_self (by omega) (by omega)
    have hqm : 2 * (n / 2) + n % 2 = n := Nat.div_add_mod n 2
    have hm2 : n % 2 < 2 := Nat.mod_lt n (by omega)
    have hid2 : id ≠ d := Ne.symm hdid
    have hyt : (y :: t).length = n - 1 := by
      simp [List.length_cons] at hL ⊢; omega
    refine ⟨x, y :: t, reschedSplitState s id d (x :: y :: t), hpd, heq,
      rfl, rfl, ?_, ?_, ?_, ?_, ?_, ?_⟩
    · intro j hj1 hj2
      simp [reschedSplitState, hj1, hj2]
    · simp [reschedSplitState, hid2, hacc, hk, hyt]
      by_cases hpar : n % 2 = 0 <;> simp [hpar] <;> omega
    · simp [reschedSplitState, hdid, hacc, hk, hyt]
      by_cases hpar : n % 2 = 0 <;> simp [hpar] <;> omega
    · simp [reschedSplitState, hdid, hid2, hacc, hk]
      by_cases hpar : n % 2 = 0 <;> simp [hpar] <;> omega
    · simp [reschedSplitState, hid2, hk]
      exact List.take_subset _ _
    · simp [reschedSplitState, hdid, hid2, hk]
      exact List.drop_subset _ _

/-- Summing over the managed range after changing one coordinate. -/
theorem sum_map_range_update (n i : Nat) (f g : Nat → Nat) (hi : i < n)
    (hoff : ∀ j, j ≠ i → g j = f j) :
    ((List.range n).map g).sum + f i = ((List.range n).map f).sum + g i := by
  induction n with
  | zero => omega
  | succ m ih =>
    rw [List.range_succ, List.map_append, List.map_append, List.sum_append,
      List.sum_append]
    by_cases h : i = m
    · subst h
      have hmap : (List.range i).map g = (List.range i).map f := by
        apply List.map_congr_left
        intro j hj
        exact hoff j (by have := List.mem_range.mp hj; omega)
      rw [hmap]
      simp only [List.map_cons, List.map_nil, List.sum_cons, List.sum_nil]
      omega
    · have hi' : i < m := by
        rcases Nat.lt_succ_iff_lt_or_eq.mp hi with h1 | h1
        · exact h1
        · exact absurd h1 h
      have hgm : g m = f m := hoff m (by omega)
      have := ih hi'
      simp only [List.map_cons, List.map_nil, List.sum_cons, List.sum_nil]
      omega

/-- `reschedule` with no donor found returns null and changes nothing. -/
theorem reschedule_no_donor (id : Nat) (s : KState) (hid : s.pools id = [])
    (h : (scanDonor s id).1 = none) : reschedule id s = (none, s) := by
  obtain ⟨m, hm⟩ : ∃ m, scanDonor s id = (none, m) :=
    ⟨(scanDonor s id).2, by rw [← h]⟩
  unfold reschedule
  simp [hid, hm]

/-- `reschedule` whose donor has an empty list (a stale count) returns
null and changes nothing (kalloc.c:100-101). -/
theorem reschedule_empty_donor (id : Nat) (s : KState) (d : Nat)
    (hid : s.pools id = []) (h : (scanDonor s id).1 = some d)
    (hpd : s.pools d = []) : reschedule id s = (none, s) := by
  obtain ⟨m, hm⟩ : ∃ m, scanDonor s id = (some d, m) :=
    ⟨(scanDonor s id).2, by rw [← h]⟩
  unfold reschedule
  simp [hid, hm, hpd]

/-- A non-panicking `kfree` pushes the page onto the calling core's
list, increments that count by one and leaves every other pool alone. -/
theorem kfree_some (endA physTop cpu pa : Nat) (s s' : KState)
    (h : kfree endA physTop cpu pa s = some s') :
    s'.ncpu = s.ncpu ∧
    s'.pools cpu = pa :: s.pools cpu ∧ s'.lens cpu = s.lens cpu + 1 ∧
    (∀ j, j ≠ cpu → s'.pools j = s.pools j ∧ s'.lens j = s.lens j) := by
  unfold kfree at h
  by_cases hc : pa % PGSIZE ≠ 0 ∨ pa < endA ∨ physTop ≤ pa
  · rw [if_pos hc] at h; cases h
  · rw [if_neg hc] at h
    injection h with h
    subst h
    refine ⟨rfl, by simp, by simp, ?_⟩
    intro j hj
    simp [hj]

/-- A non-panicking `kfree` grows the stored total by one and preserves
count accuracy. -/
theorem kfree_conserve (endA physTop cpu pa : Nat) (s s' : KState)
    (hcpu : cpu < s.ncpu) (h : kfree endA physTop cpu pa s = some s') :
    sumLens s' = sumLens s + 1 ∧ (Accurate s → Accurate s') := by
  obtain ⟨hn, hp, hl, hfr⟩ := kfree_some endA physTop cpu pa s s' h
  constructor
  · have hupd := sum_map_range_update s.ncpu cpu s.lens s'.lens hcpu
      (fun j hj => (hfr j hj).2)
    unfold sumLens
    rw [hn]
    omega
  · intro hacc i hi
    rw [hn] at hi
    by_cases hic : i = cpu
    · subst hic
      rw [hl, hp, List.length_cons, hacc i hi]
    · rw [(hfr i hic).1, (hfr i hic).2]
      exact hacc i hi

/-- One `kalloc` call from an accurate state: preserves the count/length
invariant and removes exactly one page from the pool totals when (and
only when) it succeeds. -/
theorem kalloc_delta (cpu : Nat) (s : KState) (hcpu : cpu < s.ncpu)
    (hacc : Accurate s) :
    (kalloc cpu s).2.ncpu = s.ncpu ∧ Accurate (kalloc cpu s).2 ∧
    sumLens (kalloc cpu s).2 + (if (kalloc cpu s).1.isSome then 1 else 0) =
      sumLens s := by
  cases hp : s.pools cpu with
  | cons r rest =>
    have hlc : s.lens cpu = rest.length + 1 := by
      rw [hacc cpu hcpu, hp, List.length_cons]
    simp only [kalloc, hp]
    refine ⟨rfl, ?_, ?_⟩
    · intro i hi
      by_cases hic : i = cpu
      · subst hic; simp [hlc]
      · simp only [lens_setLen, pools_setLen, pools_setPool, lens_setPool,
          if_neg hic]
        exact hacc i hi
    · have hupd := sum_map_range_update s.ncpu cpu s.lens
        (setLen (setPool s cpu rest) cpu (s.lens cpu - 1)).lens hcpu
        (fun j hj => by simp [hj])
      simp only [lens_setLen, if_pos] at hupd
      simp [sumLens]
      omega
  | nil =>
    rcases hsd : (scanDonor s cpu).1 with _ | d
    · have hke : kalloc cpu s = (none, s) := by
        simp only [kalloc, hp]
        rw [reschedule_no_donor cpu s hp hsd]
      rw [hke]
      exact ⟨rfl, hacc, by simp⟩
    · have hinv := (scanDonor_inv s cpu) d hsd
      have hdn : 1 ≤ (s.pools d).length := by
        rw [← hacc d hinv.2.1]
        omega
      obtain ⟨x, xs, s', hpd, hres, hn', hm', hfr, haccid, haccd, hsum,
        hsubid, hsubd⟩ :=
        reschedule_donor s cpu d ((s.pools d).length) hp hsd
          (hacc d hinv.2.1) rfl hdn
      have hke : kalloc cpu s =
          (some x, { s' with mem := memsetPage 5 x s'.mem }) := by
        simp only [kalloc, hp]
        rw [hres]
      rw [hke]
      have hdcpu : d ≠ cpu := hinv.1
      have hlen0 : s.lens cpu = 0 := by rw [hacc cpu hcpu, hp]; rfl
      refine ⟨hn', ?_, ?_⟩
      · intro i hi
        simp only at hi ⊢
        by_cases hic : i = cpu
        · subst hic; exact haccid
        · by_cases hid2 : i = d
          · subst hid2; exact haccd
          · obtain ⟨h1, h2⟩ := hfr i hic hid2
            rw [h1, h2]
            exact hacc i (by omega)
      · have hupd1 := sum_map_range_update s.ncpu cpu s.lens
          (fun j => if j = cpu then s'.lens cpu else s.lens j) hcpu
          (fun j hj => by simp [hj])
        have hupd2 := sum_map_range_update s.ncpu d
          (fun j => if j = cpu then s'.lens cpu else s.lens j) s'.lens
          hinv.2.1
          (fun j hj => by
            by_cases hjc : j = cpu
            · subst hjc; simp
            · simp only [if_neg hjc]
              exact (hfr j hjc hj).2)
        simp only [if_pos, if_neg hdcpu] at hupd1 hupd2
        have haccd2 : s.lens d = (s.pools d).length := hacc d hinv.2.1
        simp [sumLens, hn']
        omega

/-- Along any run of allocator calls from an accurate state, accuracy is
preserved and the stored free-page total plus the successful-allocation
count stays equal to the initial total plus the free count. -/
theorem runOps_conserve (endA physTop : Nat) :
    ∀ (ops : List KOp) (s sf : KState) (a f : Nat),
      (∀ op ∈ ops, KOp.cpu op < s.ncpu) → Accurate s →
      runOps endA physTop ops s = some (sf, a, f) →
      sf.ncpu = s.ncpu ∧ Accurate sf ∧ sumLens sf + a = sumLens s + f := by
  intro ops
  induction ops with
  | nil =>
    intro s sf a f _ hacc h
    simp only [runOps, Option.some_inj, Prod.mk.injEq] at h
    obtain ⟨h1, h2, h3⟩ := h
    subst h1; subst h2; subst h3
    exact ⟨rfl, hacc, rfl⟩
  | cons op rest ih =>
    intro s sf a f hcpu hacc h
    cases op with
    | alloc c =>
      have hc : c < s.ncpu := hcpu (KOp.alloc c) (List.mem_cons_self _ _)
      have hdelta := kalloc_delta c s hc hacc
      simp only [runOps] at h
      rcases hk : kalloc c s with ⟨r, s1⟩
      simp only [hk] at h hdelta
      rcases hr : runOps endA physTop rest s1 with _ | ⟨sf1, a1, f1⟩
      · simp only [hr] at h
        exact Option.noConfusion h
      · simp only [hr, Option.some_inj, Prod.mk.injEq] at h
        obtain ⟨h1, h2, h3⟩ := h
        have hrest := ih s1 sf1 a1 f1
          (fun op hop => by
            rw [hdelta.1]
            exact hcpu op (List.mem_cons_of_mem _ hop))
          hdelta.2.1 hr
        rw [← h1, ← h2, ← h3]
        refine ⟨by rw [hrest.1, hdelta.1], hrest.2.1, ?_⟩
        have e1 := hrest.2.2
        have e2 := hdelta.2.2
        omega
    | free c pa =>
      have hc : c < s.ncpu := hcpu (KOp.free c pa) (List.mem_cons_self _ _)
      simp only [runOps] at h
      rcases hk : kfree endA physTop c pa s with _ | s1
      · simp only [hk] at h
        exact Option.noConfusion h
      · simp only [hk] at h
        rcases hr : runOps endA physTop rest s1 with _ | ⟨sf1, a1, f1⟩
        · simp only [hr] at h
          exact Option.noConfusion h
        · simp only [hr, Option.some_inj, Prod.mk.injEq] at h
          obtain ⟨h1, h2, h3⟩ := h
          have hsome := kfree_some endA physTop c pa s s1 hk
          have hcons := kfree_conserve endA physTop c pa s s1 hc hk
          have hrest := ih s1 sf1 a1 f1
            (fun op hop => by
              rw [hsome.1]
              exact hcpu op (List.mem_cons_of_mem _ hop))
            (hcons.2 hacc) hr
          rw [← h1, ← h2, ← h3]
          refine ⟨by rw [hrest.1, hsome.1], hrest.2.1, ?_⟩
          have e1 := hrest.2.2
          have e2 := hcons.1
          omega

/-- C1 (counterexample): in Scenario A's state `sA` - pool X (= pool 1)
holding ten free pages, pool Y (= pool 0) holding none - Y's `kalloc`
triggers a rebalance with X as donor, but afterwards the counts are NOT
X = 5 and Y = 4. -/
theorem scenarioA_claim_false :
    ¬ ((kalloc 0 sA).2.lens 1 = 5 ∧ (kalloc 0 sA).2.lens 0 = 4) := by decide

/-- C1 (as the code behaves): the midpoint walk moves the donor's front
SIX pages (midpoint included) to Y; Y consumes the first of them - page
4096, from the transferred half - for the return value and ends with
free-count 5, while X ends with free-count 4.  The original donor list
is exactly the returned page followed by Y's and X's final lists. -/
theorem scenarioA_amended :
    (kalloc 0 sA).1 = some 4096 ∧
    (kalloc 0 sA).2.lens 1 = 4 ∧ (kalloc 0 sA).2.lens 0 = 5 ∧
    (kalloc 0 sA).2.pools 0 = [8192, 12288, 16384, 20480, 24576] ∧
    (kalloc 0 sA).2.pools 1 = [28672, 32768, 36864, 40960] ∧
    sA.pools 1 = 4096 :: ((kalloc 0 sA).2.pools 0 ++ (kalloc 0 sA).2.pools 1) := by
  refine ⟨by decide, by decide, by decide, by decide, by decide, by decide⟩

/-- C5: a rebalance on a donor list of length `n ≥ 1` leaves both
affected pools with stored counts equal to their lists' actual lengths,
adding up to `n - 1` (odd and even `n` alike - exactly one page leaves
the pool system to the caller) and every other pool untouched; and along
any run of allocator calls from a count-accurate state, accuracy is kept
and the sum of stored free-counts plus the number of successful
allocations equals the initial sum plus the number of frees - the
conservation law of the quiescent state. -/
theorem rebalance_conservation :
    (∀ (s : KState) (id d n : Nat),
      s.pools id = [] → (scanDonor s id).1 = some d →
      s.lens d = n → (s.pools d).length = n → 1 ≤ n →
      ∃ r s', reschedule id s = (some r, s') ∧
        s'.lens id = (s'.pools id).length ∧
        s'.lens d = (s'.pools d).length ∧
        s'.lens d + s'.lens id = n - 1 ∧
        (∀ j, j ≠ id → j ≠ d → s'.pools j = s.pools j ∧ s'.lens j = s.lens j)) ∧
    (∀ (endA physTop : Nat) (ops : List KOp) (s sf : KState) (a f : Nat),
      (∀ op ∈ ops, KOp.cpu op < s.ncpu) → Accurate s →
      runOps endA physTop ops s = some (sf, a, f) →
      Accurate sf ∧ sumLens sf + a = sumLens s + f) := by
  constructor
  · intro s id d n hid hd hacc hlen hn
    obtain ⟨x, xs, s', hpd, hres, _, _, hfr, haccid, haccd, hsum, _, _⟩ :=
      reschedule_donor s id d n hid hd hacc hlen hn
    exact ⟨x, s', hres, haccid, haccd, hsum, hfr⟩
  · intro endA physTop ops s sf a f hcpu hacc h
    have := runOps_conserve endA physTop ops s sf a f hcpu hacc h
    exact ⟨this.2.1, this.2.2⟩

/-- C5 witness: both parts at concrete inputs - the ten-page rebalance
of `sA`, and a two-call run (one allocation, one free). -/
theorem rebalance_conservation_witness :
    (∃ r s', reschedule 0 sA = (some r, s') ∧
      s'.lens 0 = (s'.pools 0).length ∧
      s'.lens 1 = (s'.pools 1).length ∧
      s'.lens 1 + s'.lens 0 = 10 - 1 ∧
      (∀ j, j ≠ 0 → j ≠ 1 → s'.pools j = sA.pools j ∧ s'.lens j = sA.lens j)) ∧
    (∀ sf a f, runOps 4096 65536 [KOp.alloc 0, KOp.free 1 61440] sA = some (sf, a, f) →
      Accurate sf ∧ sumLens sf + a = sumLens sA + f) := by
  constructor
  · exact rebalance_conservation.1 sA 0 1 10 (by decide) (by decide)
      (by decide) (by decide) (by decide)
  · intro sf a f h
    exact rebalance_conservation.2 4096 65536 [KOp.alloc 0, KOp.free 1 61440]
      sA sf a f (by decide)
      (by
        intro i hi
        have hi2 : i < 2 := hi
        interval_cases i <;> decide) h

/-- C8: `kfree(pa)` panics exactly when `pa` is not page-aligned or lies
outside the managed range `[endA, physTop)`; on every aligned in-range
address it returns normally, having overwritten all `PGSIZE` bytes of
the page with the filler byte 1 (every byte beyond the 8-byte link word
of the subsequent push still reads 1 when the call returns), pushed the
page onto the calling core's free list, and incremented that pool's
stored count by exactly one, leaving every other pool untouched. -/
theorem kfree_contract (endA physTop cpu pa : Nat) (s : KState) :
    (kfree endA physTop cpu pa s = none ↔
      (pa % PGSIZE ≠ 0 ∨ pa < endA ∨ physTop ≤ pa)) ∧
    (pa % PGSIZE = 0 → endA ≤ pa → pa < physTop →
      ∃ s', kfree endA physTop cpu pa s = some s' ∧
        (∀ off, off < PGSIZE → memsetPage 1 pa s.mem (pa + off) = 1) ∧
        (∀ off, 8 ≤ off → off < PGSIZE → s'.mem (pa + off) = 1) ∧
        s'.pools cpu = pa :: s.pools cpu ∧
        s'.lens cpu = s.lens cpu + 1 ∧
        (∀ j, j ≠ cpu → s'.pools j = s.pools j ∧ s'.lens j = s.lens j)) := by
  constructor
  · constructor
    · intro h
      by_contra hc
      unfold kfree at h
      rw [if_neg hc] at h
      cases h
    · intro hc
      unfold kfree
      rw [if_pos hc]
  · intro h1 h2 h3
    have hc : ¬ (pa % PGSIZE ≠ 0 ∨ pa < endA ∨ physTop ≤ pa) := by omega
    refine ⟨_, by unfold kfree; rw [if_neg hc], ?_, ?_, by simp, by simp, ?_⟩
    · intro off hoff
      simp only [memsetPage]
      rw [if_pos ⟨Nat.le_add_right pa off, by omega⟩]
    · intro off hoff8 hoff
      simp only [mem_setLen, mem_setPool, writeLink, memsetPage]
      rw [if_neg (by omega), if_pos ⟨Nat.le_add_right pa off, by omega⟩]
    · intro j hj
      simp [hj]

/-- C8 witness: freeing the aligned in-range page 8192 of a two-pool
state succeeds with all the promised effects. -/
theorem kfree_contract_witness :
    ∃ s', kfree 4096 65536 0 8192 sA = some s' ∧
      (∀ off, off < PGSIZE → memsetPage 1 8192 sA.mem (8192 + off) = 1) ∧
      (∀ off, 8 ≤ off → off < PGSIZE → s'.mem (8192 + off) = 1) ∧
      s'.pools 0 = 8192 :: sA.pools 0 ∧
      s'.lens 0 = sA.lens 0 + 1 ∧
      (∀ j, j ≠ 0 → s'.pools j = sA.pools j ∧ s'.lens j = sA.lens j) :=
  (kfree_contract 4096 65536 0 8192 sA).2 (by decide) (by decide) (by decide)

/-- C10: every page a successful `kalloc` returns has all `PGSIZE` bytes
overwritten with the junk byte 5 before it is handed out - the free-list
link word and any previous owner's data included. -/
theorem kalloc_junk_fill (cpu : Nat) (s : KState) (r : Nat) (s' : KState)
    (h : kalloc cpu s = (some r, s')) :
    ∀ off, off < PGSIZE → s'.mem (r + off) = 5 := by
  intro off hoff
  cases hp : s.pools cpu with
  | cons r0 rest =>
    simp only [kalloc, hp, Prod.mk.injEq, Option.some_inj] at h
    obtain ⟨h1, h2⟩ := h
    rw [← h2]
    simp only [memsetPage]
    rw [if_pos ⟨by omega, by omega⟩]
  | nil =>
    simp only [kalloc, hp] at h
    rcases hres : reschedule cpu s with ⟨ro, s1⟩
    rw [hres] at h
    cases ro with
    | none =>
      simp only [Prod.mk.injEq] at h
      exact Option.noConfusion h.1
    | some r2 =>
      simp only [Prod.mk.injEq, Option.some_inj] at h
      obtain ⟨h1, h2⟩ := h
      rw [← h2]
      simp only [memsetPage]
      rw [if_pos ⟨by omega, by omega⟩]

/-- C10 witness: the page returned by the Scenario-A allocation reads
junk byte 5 at its first and last byte. -/
theorem kalloc_junk_fill_witness :
    (kalloc 0 sA).2.mem (4096 + 0) = 5 ∧ (kalloc 0 sA).2.mem (4096 + 4095) = 5 := by
  have h1 : (kalloc 0 sA).1 = some 4096 := by decide
  have h : kalloc 0 sA = (some 4096, (kalloc 0 sA).2) := by rw [← h1]
  exact ⟨kalloc_junk_fill 0 sA 4096 (kalloc 0 sA).2 h 0 (by decide),
    kalloc_junk_fill 0 sA 4096 (kalloc 0 sA).2 h 4095 (by decide)⟩

/-- C9: with every managed pool's free list empty, `kalloc` returns the
null result and leaves the state unchanged - exhaustion is signalled,
not a halt (no panic exists on this path).  With accurate counts and a
free page anywhere, `kalloc` returns a page; the total of free pages
drops by exactly one and the returned page is on no managed free list
afterwards (its removal from the pool system). -/
theorem kalloc_exhaustion (cpu : Nat) (s : KState) (hcpu : cpu < s.ncpu) :
    ((∀ i, i < s.ncpu → s.pools i = []) → kalloc cpu s = (none, s)) ∧
    (Accurate s →
     (∀ i, i < s.ncpu → (s.pools i).Nodup) →
     (∀ i j p, i < s.ncpu → j < s.ncpu → p ∈ s.pools i → p ∈ s.pools j → i = j) →
     (∃ i, i < s.ncpu ∧ s.pools i ≠ []) →
     ∃ p s', kalloc cpu s = (some p, s') ∧
       sumFree s' + 1 = sumFree s ∧
       ∀ j, j < s.ncpu → p ∉ s'.pools j) := by
  constructor
  · intro hall
    have hp : s.pools cpu = [] := hall cpu hcpu
    rcases hsd : (scanDonor s cpu).1 with _ | d
    · simp only [kalloc, hp, reschedule_no_donor cpu s hp hsd]
    · have hinv := (scanDonor_inv s cpu) d hsd
      simp only [kalloc, hp,
        reschedule_empty_donor cpu s d hp hsd (hall d hinv.2.1)]
  · intro hacc hnd hdisj hex
    obtain ⟨i, hi, hine⟩ := hex
    cases hp : s.pools cpu with
    | cons r rest =>
      refine ⟨r,
        { setLen (setPool s cpu rest) cpu (s.lens cpu - 1) with
            mem := memsetPage 5 r
              (setLen (setPool s cpu rest) cpu (s.lens cpu - 1)).mem },
        by simp only [kalloc, hp], ?_, ?_⟩
      · have hupd := sum_map_range_update s.ncpu cpu
          (fun j => (s.pools j).length)
          (fun j => ((setLen (setPool s cpu rest) cpu (s.lens cpu - 1)).pools j).length)
          hcpu (fun j hj => by simp [hj])
        simp [hp] at hupd
        simp [sumFree, hp]
        omega
      · intro j hj
        by_cases hjc : j = cpu
        · rw [hjc]
          have hnd2 := hnd cpu hcpu
          rw [hp] at hnd2
          simpa using (List.nodup_cons.mp hnd2).1
        · simp only [pools_setLen, pools_setPool, if_neg hjc]
          intro hmem
          have heq := hdisj cpu j r hcpu hj
            (by rw [hp]; exact List.mem_cons_self _ _) hmem
          exact hjc heq.symm
    | nil =>
      have hicpu : i ≠ cpu := by
        intro he
        rw [he, hp] at hine
        exact hine rfl
      have hpos : 1 ≤ s.lens i := by
        rw [hacc i hi]
        cases hq : s.pools i with
        | nil => exact absurd hq hine
        | cons a t => simp [hq]
      have hsome := scanDonor_some s cpu i hi hicpu hpos
      obtain ⟨d, hsd⟩ := Option.isSome_iff_exists.mp hsome
      have hinv := (scanDonor_inv s cpu) d hsd
      have haccd := hacc d hinv.2.1
      have hdn : 1 ≤ (s.pools d).length := by rw [← haccd]; omega
      obtain ⟨x, xs, s', hpd, hres, hn', hm', hfr, haccid, haccd2, hsum,
        hsubid, hsubd⟩ :=
        reschedule_donor s cpu d ((s.pools d).length) hp hsd haccd rfl hdn
      have hdcpu : d ≠ cpu := hinv.1
      refine ⟨x, { s' with mem := memsetPage 5 x s'.mem }, ?_, ?_, ?_⟩
      · simp only [kalloc, hp, hres]
      · have hupd1 := sum_map_range_update s.ncpu cpu
          (fun j => (s.pools j).length)
          (fun j => if j = cpu then (s'.pools cpu).length else (s.pools j).length)
          hcpu (fun j hj => by simp [hj])
        have hupd2 := sum_map_range_update s.ncpu d
          (fun j => if j = cpu then (s'.pools cpu).length else (s.pools j).length)
          (fun j => (s'.pools j).length)
          hinv.2.1
          (fun j hj => by
            by_cases hjc : j = cpu
            · subst hjc; simp
            · simp only [if_neg hjc]
              rw [(hfr j hjc hj).1])
        simp only [if_pos, if_neg hdcpu, hp, List.length_nil] at hupd1 hupd2
        simp only [sumFree, hn']
        omega
      · intro j hj hmem
        have hmem2 : x ∈ s'.pools j := hmem
        have hndd := hnd d hinv.2.1
        rw [hpd] at hndd
        have hxnot : x ∉ xs := (List.nodup_cons.mp hndd).1
        by_cases hjc : j = cpu
        · exact hxnot (hsubid (hjc ▸ hmem2))
        · by_cases hjd : j = d
          · exact hxnot (hsubd (hjd ▸ hmem2))
          · have hmem3 : x ∈ s.pools j := by
              rw [← (hfr j hjc hjd).1]
              exact hmem2
            have heq := hdisj d j x hinv.2.1 hj
              (by rw [hpd]; exact List.mem_cons_self _ _) hmem3
            exact hjd heq.symm

/-- C9 witness: in the Scenario-A state (pool 0 empty, pool 1 holding
ten pages) core 0's allocation succeeds, drops the free total from ten
to nine, and the returned page 4096 is on neither pool afterwards; and
in the everywhere-empty state the call returns null unchanged. -/
theorem kalloc_exhaustion_witness :
    (∃ p s', kalloc 0 sA = (some p, s') ∧
      sumFree s' + 1 = sumFree sA ∧ ∀ j, j < sA.ncpu → p ∉ s'.pools j) ∧
    kalloc 0 sEmpty = (none, sEmpty) := by
  constructor
  · exact (kalloc_exhaustion 0 sA (by decide)).2
      (by
        intro i hi
        have hi2 : i < 2 := hi
        interval_cases i <;> decide)
      (by
        intro i hi
        have hi2 : i < 2 := hi
        interval_cases i <;> decide)
      (by
        intro i j q hi hj hqi hqj
        have hi2 : i < 2 := hi
        have hj2 : j < 2 := hj
        interval_cases i <;> interval_cases j
        · rfl
        · simp [sA] at hqi
        · simp [sA] at hqj
        · rfl)
      ⟨1, by decide, by decide⟩
  · exact (kalloc_exhaustion 0 sEmpty (by decide)).1
      (by
        intro i hi
        have hi2 : i < 2 := hi
        interval_cases i <;> decide)

end KAlloc

namespace BCache

/-- The sentinel `(uint)-1` that `binit` stores into `blockno` of every
slot (bio.c:53): the C comparison `replbuf->blockno == -1` converts `-1`
to the unsigned value `2^32 - 1`. -/
def SENTINEL : Nat := 4294967295

/-- `0xffffffff`, the initial `mintime` of the LRU scans (bio.c:94,109). -/
def UMAX : Nat := 4294967295

/-- One cache slot (`struct buf`): device id, block number, validity,
reference count and last-release timestamp.  The payload and the
per-slot sleep-lock are not modelled (no claim depends on the bytes, and
lock operations are given sequential semantics). -/
structure Buf where
  dev : Nat
  blockno : Nat
  valid : Bool
  refcnt : Nat
  timestamp : Nat
deriving DecidableEq, Inhabited

/-- The cache state: `bufs` is the fixed slot array `bcache.buf[NBUF]`
(its length is `NBUF`), and `buckets` is the `table[NBUCKET]` array of
per-shard lists (each the list of slot indices on that bucket's
`head.next` chain, in chain order). -/
structure BC where
  bufs : List Buf
  buckets : List (List Nat)
deriving DecidableEq, Inhabited

/-- `hash(blockno) = blockno % NBUCKET` (bio.c:64-68). -/
def hash (s : BC) (blockno : Nat) : Nat := blockno % s.buckets.length

/-- The chain of the bucket that `blockno` hashes to. -/
def bucketList (s : BC) (blockno : Nat) : List Nat :=
  s.buckets.getD (hash s blockno) []

/-- Apply `f` to slot `i` of the array (no-op when out of range). -/
def modifyBufAt (s : BC) (i : Nat) (f : Buf → Buf) : BC :=
  match s.bufs.get? i with
  | some b => { s with bufs := s.bufs.set i (f b) }
  | none => s

/-- `b->dev == dev && b->blockno == blockno` (bio.c:84) for the slot at
index `i` (false for an out-of-range index). -/
def keyMatch (s : BC) (dev blockno i : Nat) : Bool :=
  match s.bufs.get? i with
  | some b => b.dev == dev && b.blockno == blockno
  | none => false

/-- The hit scan of `bget` (bio.c:83-90): the first slot on the bucket's
chain whose `dev` and `blockno` match. -/
def findHit (s : BC) (dev blockno : Nat) (idxs : List Nat) : Option Nat :=
  idxs.find? (keyMatch s dev blockno)

/-- One step of an LRU scan (bio.c:96-101 and 110-115): a slot with
`refcnt == 0` and a timestamp strictly below the running minimum becomes
the new candidate. -/
def scanStepB (s : BC) (acc : Option Nat × Nat) (i : Nat) : Option Nat × Nat :=
  match s.bufs.get? i with
  | some b =>
    if b.refcnt = 0 ∧ b.timestamp < acc.2 then (some i, b.timestamp) else acc
  | none => acc

/-- An LRU scan over the slot indices `idxs` starting from the carried
candidate and running minimum `init` (`replbuf` and `mintime`). -/
def scanMin (s : BC) (idxs : List Nat) (init : Option Nat × Nat) :
    Option Nat × Nat :=
  idxs.foldl (scanStepB s) init

/-- Outcome of the global eviction loop of `bget` (bio.c:108-132). -/
inductive GRes where
  | unbound (ri : Nat)
  | migrate (ri ridx : Nat)
deriving DecidableEq

/-- The retry loop under the global `bcache.lock` (bio.c:108-132), with
`fuel` bounding the number of iterations we unfold.  Each iteration
rescans the whole slot array with `mintime` reset but `replbuf` carried
over (bio.c:109 resets only `mintime`).  A candidate still bound to the
sentinel is taken as is (bio.c:117-122); otherwise the owning bucket's
lock is taken and the loop breaks out to the migration code if the
commit test passes.  The test the source writes is `if(b->refcnt == 0)`
(bio.c:126) where `b` has just run past `bcache.buf + NBUF` in the scan
loop of bio.c:110, so it reads the out-of-bounds word modelled by the
parameter `oob` - NOT the chosen slot `replbuf`.  `none` means the fuel
ran out with the loop still spinning (the bounded `panic` of the
original code, bio.c:130-131, is commented out). -/
def globalLoop (s : BC) (oob : Nat) : Option Nat → Nat → Option GRes
  | _, 0 => none
  | prev, fuel + 1 =>
    match scanMin s (List.range s.bufs.length) (prev, UMAX) with
    | (none, _) => globalLoop s oob none fuel
    | (some ri, _) =>
      match s.bufs.get? ri with
      | none => none
      | some b =>
        if b.blockno = SENTINEL then some (GRes.unbound ri)
        else if oob = 0 then some (GRes.migrate ri (b.blockno % s.buckets.length))
        else globalLoop s oob (some ri) fuel

/-- The binding step at `find:` (bio.c:144-148): set the key, clear
validity, set `refcnt = 1`. -/
def bindSlot (s : BC) (ri dev blockno : Nat) : BC :=
  modifyBufAt s ri fun b =>
    { b with dev := dev, blockno := blockno, valid := false, refcnt := 1 }

/-- Splice slot `ri` onto the front of bucket `idx`'s chain
(`replbuf->next = bucket->head.next; bucket->head.next = replbuf`,
bio.c:118-119 and 138-139). -/
def spliceFront (s : BC) (idx ri : Nat) : BC :=
  { s with buckets := s.buckets.set idx (ri :: s.buckets.getD idx []) }

/-- Replace bucket `idx`'s chain. -/
def setBucket (s : BC) (idx : Nat) (l : List Nat) : BC :=
  { s with buckets := s.buckets.set idx l }

/-- Result of `bget`: a returned (locked) slot and the new state; or the
panic xv6's `acquire` raises on re-acquiring a held bucket lock; or
still spinning in the retry loop when the fuel runs out; or the
undefined behaviour of the predecessor walk of bio.c:134 (`b++` walks
off the bucket head into unrelated memory whenever the winning slot is
not the first element of its old bucket's chain). -/
inductive BGetRes where
  | ret (i : Nat) (s : BC)
  | panicked
  | spin
  | ub
deriving DecidableEq

/-- `bget(dev, blockno)` (bio.c:73-152).  1: lock the target bucket.
2: hit path - matching slot found on the chain: `++refcnt`, return it.
3: miss with a local `refcnt == 0` candidate of minimal timestamp: bind
it in place.  4: otherwise take the global lock and run the retry loop;
an unbound winner is spliced into the target bucket and bound; a bound
winner is unlinked from its old bucket - the walk of bio.c:134 advances
by pointer arithmetic, so it finds the predecessor only when the winner
is the first chain element (then `b` is still `&rbucket->head` and the
unlink `b->next = replbuf->next` is correct); any other position sends
`b` past the bucket head into unrelated memory (`BGetRes.ub`).  If the
winner's own bucket IS the target bucket the code re-acquires a lock it
already holds and xv6's `acquire` panics. -/
def bget (s : BC) (dev blockno oob fuel : Nat) : BGetRes :=
  match findHit s dev blockno (s.buckets.getD (hash s blockno) []) with
  | some i => BGetRes.ret i (modifyBufAt s i fun b => { b with refcnt := b.refcnt + 1 })
  | none =>
    match scanMin s (s.buckets.getD (hash s blockno) []) (none, UMAX) with
    | (some ri, _) => BGetRes.ret ri (bindSlot s ri dev blockno)
    | (none, _) =>
      match globalLoop s oob none fuel with
      | none => BGetRes.spin
      | some (GRes.unbound ri) =>
        BGetRes.ret ri (bindSlot (spliceFront s (hash s blockno) ri) ri dev blockno)
      | some (GRes.migrate ri ridx) =>
        if ridx = hash s blockno then BGetRes.panicked
        else
          match s.buckets.getD ridx [] with
          | [] => BGetRes.ub
          | r0 :: rest =>
            if r0 = ri then
              BGetRes.ret ri
                (bindSlot (spliceFront (setBucket s ridx rest) (hash s blockno) ri)
                  ri dev blockno)
            else BGetRes.ub

/-- `bread(dev, blockno)` (bio.c:155-166): `bget`, then a device read
into the slot only if it is invalid, marking it valid.  The returned
`Bool` records whether the `virtio_disk_rw` read was issued. -/
def bread (s : BC) (dev blockno oob fuel : Nat) : Option (Nat × BC × Bool) :=
  match bget s dev blockno oob fuel with
  | BGetRes.ret i s1 =>
    match s1.bufs.get? i with
    | some b =>
      if b.valid then some (i, s1, false)
      else some (i, modifyBufAt s1 i (fun c => { c with valid := true }), true)
    | none => none
  | _ => none

/-- `brelse(b)` (bio.c:179-197) on slot `i` at time `now` (the external
`ticks` counter): release the sleep-lock, decrement `refcnt` under the
bucket lock and, if it reached zero, stamp the slot with `now`. -/
def brelse (s : BC) (i now : Nat) : BC :=
  match s.bufs.get? i with
  | none => s
  | some b =>
    let b1 : Buf := { b with refcnt := b.refcnt - 1 }
    { s with bufs := s.bufs.set i (if b1.refcnt = 0 then { b1 with timestamp := now } else b1) }

/-- `bget` on this state never leaves the retry loop: at every fuel
bound it is still spinning - in particular it has neither returned a
slot nor halted by a panic. -/
def SpinsForever (s : BC) (dev blockno oob : Nat) : Prop :=
  ∀ fuel, bget s dev blockno oob fuel = BGetRes.spin

/-- A slot bound to block `bno`, valid, and held by a caller. -/
def bufBusy (bno : Nat) : Buf :=
  { dev := 1, blockno := bno, valid := true, refcnt := 1, timestamp := 0 }

/-- Two buckets, two slots, both permanently in use (`refcnt = 1`):
the eviction path finds no candidate anywhere. -/
def s4c : BC := { bufs := [bufBusy 0, bufBusy 1], buckets := [[0], [1]] }

/-- Outcome of one iteration of the cross-bucket search, seen from its
commit decision: evict the candidate, splice an unbound candidate, or
release and rescan. -/
inductive IterRes where
  | commit (ri : Nat)
  | unbound (ri : Nat)
  | retry (prev : Option Nat)
deriving DecidableEq

/-- One iteration of the cross-bucket search (bio.c:108-132) in a
two-snapshot concurrency model: the all-slot scan reads the slots as
they were at scan time (`sScan`); by the time the owning bucket's lock
is held the slots may have changed to `sRe`.  The committed test the
source writes is `if(b->refcnt == 0)` (bio.c:126), where `b` has just
run past `bcache.buf + NBUF` in the scan loop of bio.c:110-115, so it
reads the out-of-bounds word one past the slot array - modelled by the
parameter `oob`.  The recheck-time state `sRe` is never consulted. -/
def globalIterTwo (sScan sRe : BC) (oob : Nat) (prev : Option Nat) : IterRes :=
  match scanMin sScan (List.range sScan.bufs.length) (prev, UMAX) with
  | (none, _) => IterRes.retry none
  | (some ri, _) =>
    match sScan.bufs.get? ri with
    | none => IterRes.retry (some ri)
    | some b =>
      if b.blockno = SENTINEL then IterRes.unbound ri
      else if oob = 0 then IterRes.commit ri
      else IterRes.retry (some ri)

/-- Scan-time snapshot for C2: slot 0 is bound to block 3 and unused. -/
def s2scan : BC :=
  { bufs := [{ dev := 1, blockno := 3, valid := true, refcnt := 0, timestamp := 5 }]
  , buckets := [[], [0]] }

/-- Recheck-time snapshot for C2: slot 0 has been re-acquired
concurrently, its `refcnt` is now 1. -/
def s2re : BC :=
  { bufs := [{ dev := 1, blockno := 3, valid := true, refcnt := 1, timestamp := 5 }]
  , buckets := [[], [0]] }

/-- The predecessor search of bio.c:134 as written:
`for(b = &rbucket->head; b->next != replbuf; b++) {}` advances `b` by
POINTER ARITHMETIC - one `struct buf` size per step - not by following
`next` links.  `next a` is the `next` field of the record at address
`a` (in struct-size units); the walk starts at the bucket head's
address and probes successive addresses until one holds a `next` equal
to the target. -/
def addrWalk (next : Nat → Option Nat) (target : Nat) : Nat → Nat → Option Nat
  | _, 0 => none
  | pos, fuel + 1 =>
    if next pos = some target then some pos
    else addrWalk next target (pos + 1) fuel

/-- The link-following search the surrounding code uses for every other
list traversal (e.g. bio.c:83): from the record at address `pos`, stop
when its `next` is the target, else continue at the record `next`
points to. -/
def chainWalk (next : Nat → Option Nat) (target : Nat) : Nat → Nat → Option Nat
  | _, 0 => none
  | pos, fuel + 1 =>
    if next pos = some target then some pos
    else
      match next pos with
      | some q => chainWalk next target q fuel
      | none => none

/-- A bucket chain `head@100 -> node@3 -> node@7`, target node 7: the
head's `next` field links to address 3, node 3's to address 7; the
memory at the addresses 101, 102, ... that follow the head (other
kernel objects) holds no link to 7. -/
def exMem : Nat → Option Nat :=
  fun a => if a = 100 then some 3 else if a = 3 then some 7 else none

/-- Migration state for C3 with the winning slot SECOND on its old
bucket's chain: slot 1 (block 4, `refcnt` 0) sits behind slot 0 on
bucket 0; bucket 1 holds only the busy slot 2. -/
def smig : BC :=
  { bufs := [{ dev := 1, blockno := 2, valid := true, refcnt := 1, timestamp := 0 }
           , { dev := 1, blockno := 4, valid := true, refcnt := 0, timestamp := 3 }
           , { dev := 1, blockno := 3, valid := true, refcnt := 1, timestamp := 0 }]
  , buckets := [[0, 1], [2]] }

/-- The same state with the winning slot FIRST on its old bucket's
chain. -/
def smigHead : BC :=
  { bufs := smig.bufs, buckets := [[1, 0], [2]] }

/-- A freshly initialised slot: global C arrays are zero-initialised and
`binit` (bio.c:45-62) stores the sentinel into `blockno`. -/
def buf0 : Buf :=
  { dev := 0, blockno := SENTINEL, valid := false, refcnt := 0, timestamp := 0 }

/-- Scenario C's initial state: three fresh slots, two buckets with
empty chains - the state right after `binit`. -/
def sC0 : BC := { bufs := [buf0, buf0, buf0], buckets := [[], []] }

/-- A two-bucket state whose bucket 1 chain holds slot 0, bound to
`(1, 5)`, valid and unused. -/
def sHit : BC :=
  { bufs := [{ dev := 1, blockno := 5, valid := true, refcnt := 0, timestamp := 2 }]
  , buckets := [[], [0]] }

/-- A one-bucket state whose chain holds slot 0 bound to another key,
valid, unused: `bget (9, 7)` must evict and rebind it locally. -/
def sMiss : BC :=
  { bufs := [{ dev := 1, blockno := 3, valid := true, refcnt := 0, timestamp := 2 }]
  , buckets := [[0]] }

/-- The state `bget sMiss 9 7` leaves behind. -/
def sMissRes : BC := bindSlot sMiss 0 9 7

/-- The state the hit on `sHit` leaves: slot 0 with its `refcnt` raised
to 1, nothing else changed. -/
def sHitRes : BC :=
  { sHit with
      bufs := sHit.bufs.set 0 { sHit.bufs.getD 0 default with refcnt := (sHit.bufs.getD 0 default).refcnt + 1 } }

/-- An LRU scan step keeps the accumulator when no slot qualifies, so a
scan of an array whose every slot is in use returns its input unchanged
(nothing ever has `refcnt == 0`). -/
theorem scanMin_frozen (s : BC)
    (hnz : ∀ i b, s.bufs.get? i = some b → b.refcnt ≠ 0) :
    ∀ (idxs : List Nat) (init : Option Nat × Nat), scanMin s idxs init = init := by
  intro idxs
  induction idxs with
  | nil => intro init; rfl
  | cons i t ih =>
    intro init
    have hstep : scanStepB s init i = init := by
      unfold scanStepB
      cases hg : s.bufs.get? i with
      | none => rfl
      | some b =>
        simp only [hg]
        rw [if_neg]
        intro hcond
        exact hnz i b hg hcond.1
    unfold scanMin at ih ⊢
    rw [List.foldl_cons, hstep]
    exact ih init

/-- With every slot in use, each iteration of the global retry loop
rescans, finds nothing, and loops again: the loop never produces a
winner, at any fuel bound. -/
theorem globalLoop_spins (s : BC) (oob : Nat)
    (hnz : ∀ i b, s.bufs.get? i = some b → b.refcnt ≠ 0) :
    ∀ fuel, globalLoop s oob none fuel = none := by
  intro fuel
  induction fuel with
  | zero => rfl
  | succ n ih =>
    unfold globalLoop
    rw [scanMin_frozen s hnz]
    exact ih

/-- With no matching slot on the target bucket and no `refcnt == 0` slot
anywhere, `bget` neither returns nor panics at any fuel bound: it is
still spinning in the retry loop (the iteration-bounded panic of the
original code is commented out of bio.c:130-131, and the
`panic("bget: no buffers")` of bio.c:143 sits right after a `goto` and
is unreachable). -/
theorem bget_spins_aux (s : BC) (dev blockno oob : Nat)
    (hnohit : findHit s dev blockno (bucketList s blockno) = none)
    (hnz : ∀ i b, s.bufs.get? i = some b → b.refcnt ≠ 0) :
    ∀ fuel, bget s dev blockno oob fuel = BGetRes.spin := by
  intro fuel
  have hnohit2 : findHit s dev blockno
      (s.buckets.getD (hash s blockno) []) = none := hnohit
  unfold bget
  simp only [hnohit2, scanMin_frozen s hnz, globalLoop_spins s oob hnz fuel]

/-- C4 (counterexample): with no `refcnt == 0` slot anywhere, `bget`
does NOT halt fatally - it spins in the retry loop forever (and never
returns either). -/
theorem no_free_slot_claim_false :
    SpinsForever s4c 1 5 0 ∧ ∀ b ∈ s4c.bufs, b.refcnt ≠ 0 := by
  constructor
  · intro fuel
    exact bget_spins_aux s4c 1 5 0 (by decide)
      (fun i b h => (by decide : ∀ b ∈ s4c.bufs, b.refcnt ≠ 0) b (List.get?_mem h))
      fuel
  · decide

/-- C4 (as the code behaves): whenever `bget` reaches the eviction code
path (no hit on the target bucket) and no slot with `refcnt == 0` exists
anywhere, the operation does not halt, does not panic and does not
return: the retry scan loops indefinitely, at every fuel bound (the
bounded `panic("bget: no buffers")` is commented out and the other one
is unreachable dead code). -/
theorem no_free_slot_spins (s : BC) (dev blockno oob : Nat)
    (hnohit : findHit s dev blockno (bucketList s blockno) = none)
    (hnz : ∀ i b, s.bufs.get? i = some b → b.refcnt ≠ 0) :
    ∀ fuel, bget s dev blockno oob fuel = BGetRes.spin :=
  bget_spins_aux s dev blockno oob hnohit hnz

/-- C4 witness: the all-busy state at fuel bound 42. -/
theorem no_free_slot_spins_witness : bget s4c 1 5 0 42 = BGetRes.spin :=
  no_free_slot_spins s4c 1 5 0 (by decide)
    (fun i b h => (by decide : ∀ b ∈ s4c.bufs, b.refcnt ≠ 0) b (List.get?_mem h))
    42

/-- C2: the re-verification under the owning bucket's lock does NOT test
the chosen slot.  In the two-snapshot model, the iteration commits to
evicting slot 0 although the slot's recheck-time `refcnt` is nonzero,
because the test reads the out-of-bounds word past the slot array
(here 0) instead of `replbuf->refcnt`; indeed the decision is the same
for EVERY recheck-time state. -/
theorem recheck_reads_oob :
    globalIterTwo s2scan s2re 0 none = IterRes.commit 0 ∧
    (s2re.bufs.getD 0 default).refcnt ≠ 0 ∧
    ∀ sRe2, globalIterTwo s2scan sRe2 0 none = IterRes.commit 0 := by
  refine ⟨by decide, by decide, fun sRe2 => ?_⟩
  rfl

/-- If no address at or beyond the start holds a link to the target, the
pointer-arithmetic walk never terminates, at any fuel bound. -/
theorem addrWalk_stuck (next : Nat → Option Nat) (target : Nat) :
    ∀ (fuel pos : Nat), (∀ q, pos ≤ q → next q ≠ some target) →
      addrWalk next target pos fuel = none := by
  intro fuel
  induction fuel with
  | zero => intro pos _; rfl
  | succ n ih =>
    intro pos hnone
    unfold addrWalk
    rw [if_neg (hnone pos (Nat.le_refl pos))]
    exact ih (pos + 1) (fun q hq => hnone q (by omega))

/-- C3: the cross-bucket unlink walks by pointer arithmetic, so it works
only when the winning slot is the first element of its old bucket's
chain.  On the chain `head@100 -> 3 -> 7` with winner 7 (second
position), the walk as written probes addresses 100, 101, 102, ... and
never finds the predecessor, while the link-following walk finds it at
once; accordingly `bget`'s migration is undefined behaviour when the
winner is second on its old chain (`smig`), and only in the head
position (`smigHead`) does it move the winner to the target bucket with
all other chains and slots' linkage intact. -/
theorem unlink_walk_wrong :
    (∀ fuel, addrWalk exMem 7 100 fuel = none) ∧
    chainWalk exMem 7 100 9 = some 3 ∧
    bget smig 1 5 0 3 = BGetRes.ub ∧
    bget smigHead 1 5 0 3 =
      BGetRes.ret 1 (bindSlot (spliceFront (setBucket smigHead 0 [0]) 1 1) 1 1 5) ∧
    (bindSlot (spliceFront (setBucket smigHead 0 [0]) 1 1) 1 1 5).buckets = [[0], [1, 2]] := by
  refine ⟨?_, by decide, by decide, by decide, by decide⟩
  intro fuel
  apply addrWalk_stuck
  intro q hq
  unfold exMem
  split_ifs with h1 h2
  · simp
  · omega
  · simp

/-- C6: if a slot bound to `(dev, blockno)` sits on the target bucket's
chain (bound at most once there - the cache-key-uniqueness invariant),
`bget` takes the hit path: it returns that same slot having incremented
exactly its `refcnt`, with every bucket chain, every other slot, and the
slot's own key, validity and timestamp unchanged - no eviction, no
migration.  And in Scenario C (two buckets: acquire block 5, which
issues the one device read and marks the slot valid; release; acquire
block 5 again) the second acquire is a hit on the same slot and issues
no second device read. -/
theorem hit_path_no_reread :
    (∀ (s : BC) (dev blockno oob fuel i : Nat) (b : Buf),
      i ∈ bucketList s blockno →
      s.bufs.get? i = some b →
      b.dev = dev → b.blockno = blockno →
      (∀ j, j ∈ bucketList s blockno → ∀ c, s.bufs.get? j = some c →
        c.dev = dev → c.blockno = blockno → j = i) →
      bget s dev blockno oob fuel =
        BGetRes.ret i
          { s with bufs := s.bufs.set i { b with refcnt := b.refcnt + 1 } }) ∧
    ((bread sC0 1 5 1 4).map (fun t => (t.1, t.2.2)) = some (0, true) ∧
     ((bread sC0 1 5 1 4).map fun t =>
        (bread (brelse t.2.1 t.1 7) 1 5 1 4).map fun u => (u.1, u.2.2)) =
      some (some (0, false))) := by
  constructor
  · intro s dev blockno oob fuel i b hmem hb hdev hbno huniq
    have hfind : findHit s dev blockno
        (s.buckets.getD (hash s blockno) []) = some i := by
      rcases hf : findHit s dev blockno (bucketList s blockno) with _ | j
      · exfalso
        unfold findHit at hf
        have hno := List.find?_eq_none.mp hf i hmem
        refine hno ?_
        unfold keyMatch
        simp only [hb]
        simp [hdev, hbno]
      · unfold findHit at hf
        have hpj : keyMatch s dev blockno j = true := List.find?_some hf
        have hjmem : j ∈ bucketList s blockno := List.mem_of_find?_eq_some hf
        unfold keyMatch at hpj
        cases hcj : s.bufs.get? j with
        | none =>
          simp only [hcj] at hpj
          exact Bool.noConfusion hpj
        | some c =>
          simp only [hcj, Bool.and_eq_true, beq_iff_eq] at hpj
          have hji := huniq j hjmem c hcj hpj.1 hpj.2
          rw [← hji]
          exact hf
    unfold bget
    simp only [hfind]
    unfold modifyBufAt
    simp only [hb]
  · exact ⟨by decide, by decide⟩

/-- C6 witness: in the two-bucket state whose bucket 1 chain holds slot
0 bound to `(1, 5)`, `bget (1, 5)` is a hit on slot 0. -/
theorem hit_path_no_reread_witness :
    bget sHit 1 5 0 4 = BGetRes.ret 0 sHitRes := by
  exact hit_path_no_reread.1 sHit 1 5 0 4 0 (sHit.bufs.getD 0 default)
    (by decide) (by decide) (by decide) (by decide)
    (by
      intro j hj c hc _ _
      have hj2 : j ∈ [0] := hj
      simpa using hj2)

/-- Every candidate an LRU scan hands back points at an existing slot,
provided the carried-in candidate does. -/
theorem scanMin_get (s : BC) :
    ∀ (idxs : List Nat) (init : Option Nat × Nat),
      (∀ d, init.1 = some d → (s.bufs.get? d).isSome) →
      ∀ ri, (scanMin s idxs init).1 = some ri → (s.bufs.get? ri).isSome := by
  intro idxs
  induction idxs with
  | nil => intro init h ri hri; exact h ri hri
  | cons i t ih =>
    intro init h ri hri
    unfold scanMin at hri
    rw [List.foldl_cons] at hri
    refine ih (scanStepB s init i) ?_ ri hri
    intro d hd
    unfold scanStepB at hd
    cases hg : s.bufs.get? i with
    | none =>
      simp only [hg] at hd
      exact h d hd
    | some b =>
      simp only [hg] at hd
      by_cases hc : b.refcnt = 0 ∧ b.timestamp < init.2
      · rw [if_pos hc] at hd
        simp only [Option.some_inj] at hd
        rw [← hd, hg]
        rfl
      · rw [if_neg hc] at hd
        exact h d hd

/-- Every winner the global retry loop hands back points at an existing
slot. -/
theorem globalLoop_get (s : BC) (oob : Nat) :
    ∀ (fuel : Nat) (prev : Option Nat),
      (∀ d, prev = some d → (s.bufs.get? d).isSome) →
      ∀ gr, globalLoop s oob prev fuel = some gr →
        ∀ ri ridx, (gr = GRes.unbound ri ∨ gr = GRes.migrate ri ridx) →
          (s.bufs.get? ri).isSome := by
  intro fuel
  induction fuel with
  | zero =>
    intro prev _ gr hgr
    cases hgr
  | succ n ih =>
    intro prev h gr hgr ri ridx hcase
    unfold globalLoop at hgr
    rcases hscan : scanMin s (List.range s.bufs.length) (prev, UMAX) with ⟨o, m⟩
    cases o with
    | none =>
      simp only [hscan] at hgr
      exact ih none (fun d hd => Option.noConfusion hd) gr hgr ri ridx hcase
    | some rj =>
      have hjv : (s.bufs.get? rj).isSome :=
        scanMin_get s (List.range s.bufs.length) (prev, UMAX) h rj
          (by rw [hscan])
      rcases hg : s.bufs.get? rj with _ | b
      · rw [hg] at hjv; cases hjv
      · simp only [hscan, hg] at hgr
        by_cases hsent : b.blockno = SENTINEL
        · rw [if_pos hsent] at hgr
          simp only [Option.some_inj] at hgr
          rcases hcase with hce | hce <;> rw [← hgr] at hce
          · cases hce with
            | refl => rw [hg]; rfl
          · cases hce
        · rw [if_neg hsent] at hgr
          by_cases hoob : oob = 0
          · rw [if_pos hoob] at hgr
            simp only [Option.some_inj] at hgr
            rcases hcase with hce | hce <;> rw [← hgr] at hce
            · cases hce
            · cases hce with
              | refl => rw [hg]; rfl
          · rw [if_neg hoob] at hgr
            exact ih (some rj)
              (fun d hd => by
                rw [← Option.some_inj.mp hd, hg]; rfl)
              gr hgr ri ridx hcase

/-- After the binding step, the bound slot holds the requested key,
invalid, with `refcnt = 1`. -/
theorem bindSlot_get (s : BC) (ri dev blockno : Nat) (b : Buf)
    (hb : s.bufs.get? ri = some b) :
    (bindSlot s ri dev blockno).bufs.get? ri =
      some { b with dev := dev, blockno := blockno, valid := false, refcnt := 1 } := by
  have hlen : ri < s.bufs.length := by
    by_contra hge
    rw [List.get?_eq_none.mpr (by omega)] at hb
    cases hb
  unfold bindSlot modifyBufAt
  simp only [hb]
  exact List.get?_set_eq_of_lt _ hlen

/-- C7: whatever miss path `bget` binds a slot on - local eviction, an
unbound slot taken under the global lock, or a cross-bucket migration -
the returned slot holds the requested device and block number, validity
false, and `refcnt` exactly 1. -/
theorem miss_binds_slot (s : BC) (dev blockno oob fuel i : Nat) (s' : BC)
    (hmiss : findHit s dev blockno (bucketList s blockno) = none)
    (h : bget s dev blockno oob fuel = BGetRes.ret i s') :
    ∃ b, s'.bufs.get? i = some b ∧ b.dev = dev ∧ b.blockno = blockno ∧
      b.valid = false ∧ b.refcnt = 1 := by
  have hmiss2 : findHit s dev blockno
      (s.buckets.getD (hash s blockno) []) = none := hmiss
  unfold bget at h
  simp only [hmiss2] at h
  rcases hscan : scanMin s (s.buckets.getD (hash s blockno) []) (none, UMAX)
    with ⟨o, m⟩
  cases o with
  | some ri =>
    simp only [hscan, BGetRes.ret.injEq] at h
    obtain ⟨h1, h2⟩ := h
    have hv : (s.bufs.get? ri).isSome :=
      scanMin_get s _ _ (fun d hd => Option.noConfusion hd) ri (by rw [hscan])
    obtain ⟨b, hb⟩ := Option.isSome_iff_exists.mp hv
    refine ⟨{ b with dev := dev, blockno := blockno, valid := false, refcnt := 1 },
      ?_, rfl, rfl, rfl, rfl⟩
    rw [← h2, ← h1]
    exact bindSlot_get s ri dev blockno b hb
  | none =>
    simp only [hscan] at h
    rcases hgl : globalLoop s oob none fuel with _ | gr
    · simp only [hgl] at h
      exact BGetRes.noConfusion h
    · cases gr with
      | unbound ri =>
        simp only [hgl, BGetRes.ret.injEq] at h
        obtain ⟨h1, h2⟩ := h
        have hv : (s.bufs.get? ri).isSome :=
          globalLoop_get s oob fuel none (fun d hd => Option.noConfusion hd)
            (GRes.unbound ri) hgl ri 0 (Or.inl rfl)
        obtain ⟨b, hb⟩ := Option.isSome_iff_exists.mp hv
        have hb2 : (spliceFront s (hash s blockno) ri).bufs.get? ri = some b := hb
        refine ⟨{ b with dev := dev, blockno := blockno, valid := false, refcnt := 1 },
          ?_, rfl, rfl, rfl, rfl⟩
        rw [← h2, ← h1]
        exact bindSlot_get (spliceFront s (hash s blockno) ri) ri dev blockno b hb2
      | migrate ri ridx =>
        simp only [hgl] at h
        by_cases hpan : ridx = hash s blockno
        · rw [if_pos hpan] at h
          exact BGetRes.noConfusion h
        · rw [if_neg hpan] at h
          rcases hrb : s.buckets.getD ridx [] with _ | ⟨r0, rest⟩
          · simp only [hrb] at h
            exact BGetRes.noConfusion h
          · simp only [hrb] at h
            by_cases hr0 : r0 = ri
            · rw [if_pos hr0] at h
              simp only [BGetRes.ret.injEq] at h
              obtain ⟨h1, h2⟩ := h
              have hv : (s.bufs.get? ri).isSome :=
                globalLoop_get s oob fuel none (fun d hd => Option.noConfusion hd)
                  (GRes.migrate ri ridx) hgl ri ridx (Or.inr rfl)
              obtain ⟨b, hb⟩ := Option.isSome_iff_exists.mp hv
              have hb2 : (spliceFront (setBucket s ridx rest)
                  (hash s blockno) ri).bufs.get? ri = some b := hb
              refine ⟨{ b with dev := dev, blockno := blockno, valid := false, refcnt := 1 }, ?_, rfl, rfl, rfl, rfl⟩
              rw [← h2, ← h1]
              exact bindSlot_get (spliceFront (setBucket s ridx rest)
                (hash s blockno) ri) ri dev blockno b hb2
            · rw [if_neg hr0] at h
              exact BGetRes.noConfusion h

/-- C7 witness: with slot 0 on the target chain bound to another key and
unused, `bget (9, 7)` rebinds it: device 9, block 7, invalid,
`refcnt = 1`. -/
theorem miss_binds_slot_witness :
    ∃ b, sMissRes.bufs.get? 0 = some b ∧ b.dev = 9 ∧ b.blockno = 7 ∧
      b.valid = false ∧ b.refcnt = 1 :=
  miss_binds_slot sMiss 9 7 0 1 0 sMissRes (by decide) (by decide)

end BCache

